import Mathlib

/-!
Verification of the binary-heap priority queue in src/PriorityQueue.h.

The C++ class PriorityQueue<T, Container, Compare> stores its elements in a
contiguous container c (modelled as a List) ordered as an implicit binary
tree, together with a comparison comp (modelled as a Bool-valued binary
function).  Machine indices (size_t) are modelled as Nat; all index
arithmetic the code performs is on values where Nat and size_t agree, the
one exception (c.size() - 1 on an empty container in pop) being reachable
only through the out-of-bounds executions that the Option-valued models
flag explicitly.  Reads c[i] through operator[] are undefined behaviour
when i is out of bounds; operations whose executions can reach such a read
are modelled as Option-valued, with none standing for the out-of-bounds
execution (not for any error signal present in the code — the code has
none).
-/

namespace PQ

variable {α : Type}

/-- Index of the parent node, from the private member parent:
(index - 1) / 2.  Subtraction is Nat subtraction; the code only invokes
parent with a nonzero argument, where size_t and Nat arithmetic agree. -/
def parent (index : Nat) : Nat := (index - 1) / 2

/-- Index of the left child, from the private member left_child: 2*index + 1. -/
def left_child (index : Nat) : Nat := 2 * index + 1

/-- Index of the right child, from the private member right_child: 2*(index + 1). -/
def right_child (index : Nat) : Nat := 2 * (index + 1)

/-- From the private member is_internal: left_child(index) < c.size(). -/
def is_internal (c : List α) (index : Nat) : Bool :=
  decide (left_child index < c.length)

/-- From the private member is_leaf: left_child(index) >= c.size(). -/
def is_leaf (c : List α) (index : Nat) : Bool :=
  decide (left_child index ≥ c.length)

/-- From the private member swap(a, b): temp = move(c[a]); c[a] = move(c[b]);
c[b] = move(temp).  Value semantics of the three move-assignments on a
vector; both call sites use in-bounds indices. -/
def swap [Inhabited α] (c : List α) (a b : Nat) : List α :=
  (c.set a (c.getD b default)).set b (c.getD a default)

/-- Sift-up, from the private member upheap: stop at the root, otherwise
if comp(c[parent(index)], c[index]) exchange the two (the code inlines the
three move-assignments of swap) and recurse at parent(index). -/
def upheap [Inhabited α] (comp : α → α → Bool) (c : List α) (index : Nat) :
    List α :=
  if h0 : index = 0 then c
  else
    if comp (c.getD (parent index) default) (c.getD index default) then
      upheap comp (swap c (parent index) index) (parent index)
    else c
termination_by index
decreasing_by
  simp only [parent]
  omega

/-- Sift-down, from the private member downheap: return at a leaf; with a
left child only, exchange and recurse there when comp(c[index], c[lchild]);
with both children, return when both compare below c[index], otherwise
exchange with the left child when comp(c[rchild], c[lchild]) and with the
right child otherwise, recursing from the exchanged position. -/
def downheap [Inhabited α] (comp : α → α → Bool) (c : List α) (index : Nat) :
    List α :=
  if h1 : is_leaf c index then c
  else if h2 : right_child index ≥ c.length then
    if comp (c.getD index default) (c.getD (left_child index) default) then
      downheap comp (swap c index (left_child index)) (left_child index)
    else c
  else
    if comp (c.getD (right_child index) default) (c.getD index default) &&
        comp (c.getD (left_child index) default) (c.getD index default) then c
    else if comp (c.getD (right_child index) default)
        (c.getD (left_child index) default) then
      downheap comp (swap c index (left_child index)) (left_child index)
    else
      downheap comp (swap c index (right_child index)) (right_child index)
termination_by c.length - index
decreasing_by
  · simp only [is_leaf, ge_iff_le, decide_eq_true_eq, not_le] at h1
    simp only [swap, List.length_set, left_child] at *
    omega
  · simp only [is_leaf, ge_iff_le, decide_eq_true_eq, not_le] at h1
    simp only [swap, List.length_set, left_child] at *
    omega
  · simp only [ge_iff_le, not_le] at h2
    simp only [swap, List.length_set, right_child] at *
    omega

/-- From the public member top: return c[0].  The code performs no
emptiness check; none models the out-of-bounds read of c[0] on an empty
container (undefined behaviour), not an error signal. -/
def top (c : List α) : Option α := getElem? c 0

/-- From the public member empty: c.size() == 0. -/
def empty (c : List α) : Bool := decide (c.length = 0)

/-- From the public member size: c.size(). -/
def size (c : List α) : Nat := c.length

/-- From the copy overload push(const value_type&): c.push_back(value);
upheap(c.size() - 1). -/
def push [Inhabited α] (comp : α → α → Bool) (c : List α) (value : α) :
    List α :=
  upheap comp (c ++ [value]) ((c ++ [value]).length - 1)

/-- From the move overload push(value_type&&): c.push_back(move(value));
upheap(size() - 1).  Under value semantics the moved-in element is the same
value the copy overload copies in. -/
def pushMove [Inhabited α] (comp : α → α → Bool) (c : List α) (value : α) :
    List α :=
  upheap comp (c ++ [value]) (size (c ++ [value]) - 1)

/-- The sequence pop hands to downheap(0): the container after
swap(0, c.size() - 1) and c.pop_back(). -/
def popDownheapArg [Inhabited α] (c : List α) : List α :=
  (swap c 0 (c.length - 1)).dropLast

/-- From the public member pop: swap(0, c.size() - 1); c.pop_back();
downheap(0).  On an empty container the code evaluates c[0] and
c[c.size() - 1] (the latter with size_t wrap-around) and calls pop_back on
an empty vector — undefined behaviour, modelled as none.  The stream
output the member also performs is I/O only and has no effect on the
container. -/
def pop [Inhabited α] (comp : α → α → Bool) (c : List α) :
    Option (List α) :=
  match c with
  | [] => none
  | _ :: _ => some (downheap comp (popDownheapArg c) 0)

/-- Heap invariant of the specification: no child compares strictly above
its parent. -/
def heapProp [Inhabited α] (comp : α → α → Bool) (c : List α) : Prop :=
  ∀ i, 0 < i → i < c.length →
    comp (c.getD (parent i) default) (c.getD i default) = false

/-- A public call against the container: push of a value, or pop. -/
inductive Op (α : Type) where
  | pushOp (v : α)
  | popOp

/-- Run a sequence of public calls from a starting state; none as soon as
a pop hits the empty container (its execution is undefined there). -/
def run [Inhabited α] (comp : α → α → Bool) :
    List α → List (Op α) → Option (List α)
  | c, [] => some c
  | c, Op.pushOp v :: ops => run comp (push comp c v) ops
  | c, Op.popOp :: ops =>
      match pop comp c with
      | none => none
      | some c2 => run comp c2 ops

/-- Number of push calls in a call sequence. -/
def countPush : List (Op α) → Nat
  | [] => 0
  | Op.pushOp _ :: ops => countPush ops + 1
  | Op.popOp :: ops => countPush ops

/-- Number of pop calls in a call sequence. -/
def countPop : List (Op α) → Nat
  | [] => 0
  | Op.pushOp _ :: ops => countPop ops
  | Op.popOp :: ops => countPop ops + 1

/-- Drain the container by fuel rounds of top-then-pop, collecting the
values top returns. -/
def drain [Inhabited α] (comp : α → α → Bool) : Nat → List α → List α
  | 0, _ => []
  | Nat.succ fuel, c =>
      match top c, pop comp c with
      | some t, some c2 => t :: drain comp fuel c2
      | _, _ => []

/-- Push every element of a list, left to right. -/
def pushAll [Inhabited α] (comp : α → α → Bool) (c : List α) (l : List α) :
    List α :=
  l.foldl (push comp) c

/-- The default comparison std::less<int> on the demonstration element
type, over Nat. -/
def ltb (a b : Nat) : Bool := decide (a < b)

/-- The inverse comparison std::greater<int>, over Nat. -/
def gtb (a b : Nat) : Bool := decide (b < a)

/-- A comparison that orders key/tag pairs by key alone — a legitimate
instantiation of the Compare template parameter under which elements of
equal priority are distinguishable values. -/
def keyLt (a b : Nat × Nat) : Bool := decide (a.1 < b.1)

/-- Strict-weak-ordering laws the specification requires of the injected
comparison: irreflexivity, transitivity and negative transitivity. -/
def SWOrder (comp : α → α → Bool) : Prop :=
  (∀ a, comp a a = false) ∧
  (∀ a b x, comp a b = true → comp b x = true → comp a x = true) ∧
  (∀ a b x, comp a b = false → comp b x = false → comp a x = false)

/-- Downward restoration as claim C3 words it, for comparison with the
code's downheap: identical except at a node with both children, where it
stops when neither child compares strictly above the node. -/
def downheapClaim [Inhabited α] (comp : α → α → Bool) (c : List α)
    (index : Nat) : List α :=
  if h1 : is_leaf c index then c
  else if h2 : right_child index ≥ c.length then
    if comp (c.getD index default) (c.getD (left_child index) default) then
      downheapClaim comp (swap c index (left_child index)) (left_child index)
    else c
  else
    if !comp (c.getD index default) (c.getD (left_child index) default) &&
        !comp (c.getD index default) (c.getD (right_child index) default) then c
    else if comp (c.getD (right_child index) default)
        (c.getD (left_child index) default) then
      downheapClaim comp (swap c index (left_child index)) (left_child index)
    else
      downheapClaim comp (swap c index (right_child index)) (right_child index)
termination_by c.length - index
decreasing_by
  · simp only [is_leaf, ge_iff_le, decide_eq_true_eq, not_le] at h1
    simp only [swap, List.length_set, left_child] at *
    omega
  · simp only [is_leaf, ge_iff_le, decide_eq_true_eq, not_le] at h1
    simp only [swap, List.length_set, left_child] at *
    omega
  · simp only [ge_iff_le, not_le] at h2
    simp only [swap, List.length_set, right_child] at *
    omega

/-- The pop of claim C3: the code's pop with the downward restoration as
the claim words it. -/
def popClaim [Inhabited α] (comp : α → α → Bool) (c : List α) :
    Option (List α) :=
  match c with
  | [] => none
  | _ :: _ => some (downheapClaim comp (popDownheapArg c) 0)

/-! Index arithmetic of the implicit tree. -/

theorem parent_lt {j : Nat} (h : 0 < j) : parent j < j := by
  simp only [parent]
  omega

theorem parent_left_child (i : Nat) : parent (left_child i) = i := by
  simp only [parent, left_child]
  omega

theorem parent_right_child (i : Nat) : parent (right_child i) = i := by
  simp only [parent, right_child]
  omega

theorem child_of_parent {j i : Nat} (hj : 0 < j) (h : parent j = i) :
    j = left_child i ∨ j = right_child i := by
  simp only [parent] at h
  simp only [left_child, right_child]
  omega

theorem lt_left_child (i : Nat) : i < left_child i := by
  simp only [left_child]
  omega

theorem lt_right_child (i : Nat) : i < right_child i := by
  simp only [right_child]
  omega

/-! Reads and writes through getD and set, and the effect of swap. -/

theorem getD_set_self [Inhabited α] {l : List α} {i : Nat} (x : α)
    (h : i < l.length) : (l.set i x).getD i default = x := by
  rw [List.getD_eq_getElem?_getD, List.getElem?_set_eq h]
  rfl

theorem getD_set_ne [Inhabited α] {l : List α} {i j : Nat} (x : α)
    (h : i ≠ j) : (l.set i x).getD j default = l.getD j default := by
  rw [List.getD_eq_getElem?_getD, List.getElem?_set_ne h,
    ← List.getD_eq_getElem?_getD]

theorem length_swap [Inhabited α] (l : List α) (a b : Nat) :
    (swap l a b).length = l.length := by
  simp [swap]

theorem getD_swap_fst [Inhabited α] {l : List α} {a b : Nat}
    (ha : a < l.length) (hb : b < l.length) :
    (swap l a b).getD a default = l.getD b default := by
  by_cases hab : a = b
  · subst hab
    rw [swap, getD_set_self _ (by simpa using ha)]
  · rw [swap, getD_set_ne _ (fun h => hab h.symm), getD_set_self _ ha]

theorem getD_swap_snd [Inhabited α] {l : List α} {a b : Nat}
    (hb : b < l.length) :
    (swap l a b).getD b default = l.getD a default := by
  rw [swap, getD_set_self _ (by simpa using hb)]

theorem getD_swap_other [Inhabited α] {l : List α} {a b j : Nat}
    (hja : j ≠ a) (hjb : j ≠ b) :
    (swap l a b).getD j default = l.getD j default := by
  rw [swap, getD_set_ne _ (fun h => hjb h.symm), getD_set_ne _ (fun h => hja h.symm)]

/-! Consequences of the strict-weak-ordering laws. -/

theorem swo_irrefl {comp : α → α → Bool} (hs : SWOrder comp) (a : α) :
    comp a a = false := hs.1 a

theorem swo_asymm {comp : α → α → Bool} (hs : SWOrder comp) {a b : α}
    (h : comp a b = true) : comp b a = false := by
  by_contra hba
  rw [Bool.not_eq_false] at hba
  have := hs.2.1 a b a h hba
  rw [hs.1 a] at this
  exact Bool.false_ne_true this

theorem swo_shift {comp : α → α → Bool} (hs : SWOrder comp) {a b x : α}
    (h1 : comp a b = true) (h2 : comp a x = false) : comp b x = false := by
  by_contra hbx
  rw [Bool.not_eq_false] at hbx
  rw [hs.2.1 a b x h1 hbx] at h2
  simp at h2

theorem swo_flip {comp : α → α → Bool} (hs : SWOrder comp) {a b x : α}
    (h1 : comp a b = true) (h2 : comp x b = false) : comp a x = true := by
  by_contra hax
  rw [Bool.not_eq_true] at hax
  rw [hs.2.2 a x b hax h2] at h1
  exact Bool.false_ne_true h1

theorem swo_ltb : SWOrder ltb := by
  refine ⟨?_, ?_, ?_⟩ <;> intros <;> simp_all [ltb] <;> omega

theorem swo_gtb : SWOrder gtb := by
  refine ⟨?_, ?_, ?_⟩ <;> intros <;> simp_all [gtb] <;> omega

theorem swo_keyLt : SWOrder keyLt := by
  refine ⟨?_, ?_, ?_⟩ <;> intros <;> simp_all [keyLt] <;> omega

/-! Both sift procedures only exchange stored elements, so they preserve
the length and the multiset of the backing sequence. -/

theorem length_upheap [Inhabited α] (comp : α → α → Bool) :
    ∀ index, ∀ l : List α, (upheap comp l index).length = l.length := by
  intro index
  induction index using Nat.strong_induction_on with
  | _ index ih =>
    intro l
    rw [upheap]
    by_cases h0 : index = 0
    · rw [dif_pos h0]
    · rw [dif_neg h0]
      by_cases hc : comp (l.getD (parent index) default) (l.getD index default) = true
      · rw [if_pos hc, ih (parent index) (parent_lt (by omega)), length_swap]
      · rw [if_neg hc]

theorem length_downheap [Inhabited α] (comp : α → α → Bool) :
    ∀ n, ∀ l : List α, ∀ index, l.length - index ≤ n →
    (downheap comp l index).length = l.length := by
  intro n
  induction n using Nat.strong_induction_on with
  | _ n ih =>
    intro l index hn
    rw [downheap]
    by_cases h1 : is_leaf l index
    · rw [dif_pos h1]
    · rw [dif_neg h1]
      simp only [is_leaf, ge_iff_le, decide_eq_true_eq, not_le] at h1
      by_cases h2 : right_child index ≥ l.length
      · rw [dif_pos h2]
        by_cases hc : comp (l.getD index default) (l.getD (left_child index) default) = true
        · rw [if_pos hc,
            ih (l.length - left_child index)
              (by have := lt_left_child index; omega)
              _ _ (by rw [length_swap]),
            length_swap]
        · rw [if_neg hc]
      · rw [dif_neg h2]
        simp only [ge_iff_le, not_le] at h2
        by_cases hstop : (comp (l.getD (right_child index) default) (l.getD index default) &&
            comp (l.getD (left_child index) default) (l.getD index default)) = true
        · rw [if_pos hstop]
        · rw [if_neg hstop]
          by_cases htb : comp (l.getD (right_child index) default)
              (l.getD (left_child index) default) = true
          · rw [if_pos htb,
              ih (l.length - left_child index)
                (by have := lt_left_child index; have := lt_right_child index;
                    simp only [left_child, right_child] at *; omega)
                _ _ (by rw [length_swap]),
              length_swap]
          · rw [if_neg htb,
              ih (l.length - right_child index)
                (by have := lt_right_child index; omega)
                _ _ (by rw [length_swap]),
              length_swap]

theorem length_push [Inhabited α] (comp : α → α → Bool) (l : List α) (v : α) :
    (push comp l v).length = l.length + 1 := by
  rw [push, length_upheap]
  simp

theorem swap_cons_succ [Inhabited α] (hd : α) (t : List α) (a b : Nat) :
    swap (hd :: t) (a + 1) (b + 1) = hd :: swap t a b := by
  simp [swap, List.getD_cons_succ]

theorem swap_zero_perm [Inhabited α] :
    ∀ (t : List α) (k : Nat) (hd : α), k < t.length →
    ((t.getD k default) :: t.set k hd).Perm (hd :: t) := by
  intro t
  induction t with
  | nil => intro k hd hk; simp at hk
  | cons y ys ih =>
    intro k hd hk
    match k with
    | 0 => exact List.Perm.swap hd y ys
    | Nat.succ j =>
      rw [List.getD_cons_succ, List.set_cons_succ]
      have hj : j < ys.length := by simpa using hk
      exact (List.Perm.swap y _ _).trans
        ((List.Perm.cons y (ih j hd hj)).trans (List.Perm.swap hd y ys))

theorem swap_comm [Inhabited α] (l : List α) (a b : Nat) :
    swap l a b = swap l b a := by
  by_cases hab : a = b
  · rw [hab]
  · rw [swap, swap, List.set_comm _ _ _ hab]

theorem swap_perm [Inhabited α] :
    ∀ (l : List α) (a b : Nat), a < l.length → b < l.length →
    (swap l a b).Perm l := by
  intro l
  induction l with
  | nil => intro a b ha; simp at ha
  | cons hd t ih =>
    intro a b ha hb
    match a, b with
    | 0, 0 =>
      simp [swap]
    | 0, Nat.succ k =>
      have hk : k < t.length := by simpa using hb
      rw [swap]
      simp only [List.getD_cons_succ, List.getD_cons_zero, List.set_cons_zero,
        List.set_cons_succ]
      exact swap_zero_perm t k hd hk
    | Nat.succ j, 0 =>
      rw [swap_comm]
      have hj : j < t.length := by simpa using ha
      rw [swap]
      simp only [List.getD_cons_succ, List.getD_cons_zero, List.set_cons_zero,
        List.set_cons_succ]
      exact swap_zero_perm t j hd hj
    | Nat.succ j, Nat.succ k =>
      rw [swap_cons_succ]
      exact List.Perm.cons hd (ih j k (by simpa using ha) (by simpa using hb))

theorem upheap_perm [Inhabited α] (comp : α → α → Bool) :
    ∀ index, ∀ l : List α, index < l.length →
    (upheap comp l index).Perm l := by
  intro index
  induction index using Nat.strong_induction_on with
  | _ index ih =>
    intro l hlen
    rw [upheap]
    by_cases h0 : index = 0
    · rw [dif_pos h0]
    · rw [dif_neg h0]
      by_cases hc : comp (l.getD (parent index) default) (l.getD index default) = true
      · rw [if_pos hc]
        have hp : parent index < index := parent_lt (by omega)
        exact (ih (parent index) hp _ (by rw [length_swap]; omega)).trans
          (swap_perm l (parent index) index (by omega) hlen)
      · rw [if_neg hc]

theorem downheap_perm [Inhabited α] (comp : α → α → Bool) :
    ∀ n, ∀ l : List α, ∀ index, l.length - index ≤ n →
    (downheap comp l index).Perm l := by
  intro n
  induction n using Nat.strong_induction_on with
  | _ n ih =>
    intro l index hn
    rw [downheap]
    by_cases h1 : is_leaf l index
    · rw [dif_pos h1]
    · rw [dif_neg h1]
      simp only [is_leaf, ge_iff_le, decide_eq_true_eq, not_le] at h1
      have hidx : index < l.length := lt_trans (lt_left_child index) h1
      by_cases h2 : right_child index ≥ l.length
      · rw [dif_pos h2]
        by_cases hc : comp (l.getD index default) (l.getD (left_child index) default) = true
        · rw [if_pos hc]
          exact (ih (l.length - left_child index)
              (by have := lt_left_child index; omega)
              _ _ (by rw [length_swap])).trans
            (swap_perm l index (left_child index) hidx h1)
        · rw [if_neg hc]
      · rw [dif_neg h2]
        simp only [ge_iff_le, not_le] at h2
        by_cases hstop : (comp (l.getD (right_child index) default) (l.getD index default) &&
            comp (l.getD (left_child index) default) (l.getD index default)) = true
        · rw [if_pos hstop]
        · rw [if_neg hstop]
          by_cases htb : comp (l.getD (right_child index) default)
              (l.getD (left_child index) default) = true
          · rw [if_pos htb]
            exact (ih (l.length - left_child index)
                (by have := lt_left_child index; have := lt_right_child index;
                    simp only [left_child, right_child] at *; omega)
                _ _ (by rw [length_swap])).trans
              (swap_perm l index (left_child index) hidx h1)
          · rw [if_neg htb]
            exact (ih (l.length - right_child index)
                (by have := lt_right_child index; omega)
                _ _ (by rw [length_swap])).trans
              (swap_perm l index (right_child index) hidx h2)

theorem push_perm [Inhabited α] (comp : α → α → Bool) (l : List α) (v : α) :
    (push comp l v).Perm (v :: l) := by
  have h1 : ((l ++ [v]).length - 1) < (l ++ [v]).length := by simp
  exact (upheap_perm comp _ _ h1).trans (List.perm_append_singleton v l)

theorem popDownheapArg_perm [Inhabited α] (hd : α) (t : List α) :
    (popDownheapArg (hd :: t)).Perm t := by
  rcases List.eq_nil_or_concat t with rfl | ⟨u, x, rfl⟩
  · simp [popDownheapArg, swap]
  · simp only [List.concat_eq_append]
    have hlen : (hd :: (u ++ [x])).length - 1 = u.length + 1 := by simp
    rw [popDownheapArg, hlen]
    have hget : (hd :: (u ++ [x])).getD (u.length + 1) default = x := by
      rw [List.getD_cons_succ, List.getD_eq_getElem?_getD,
        List.getElem?_concat_length]
      rfl
    rw [swap, hget, List.getD_cons_zero, List.set_cons_zero, List.set_cons_succ,
      List.set_append_right _ _ (Nat.le_refl u.length), Nat.sub_self,
      List.set_cons_zero]
    have : (x :: (u ++ [hd])).dropLast = x :: u := by
      have : x :: (u ++ [hd]) = (x :: u) ++ [hd] := by simp
      rw [this, List.dropLast_concat]
    rw [this]
    exact (List.perm_append_singleton x u).symm

theorem pop_perm [Inhabited α] (comp : α → α → Bool) (hd : α) (t l2 : List α)
    (h : pop comp (hd :: t) = some l2) : l2.Perm t := by
  rw [pop] at h
  have h2 : l2 = downheap comp (popDownheapArg (hd :: t)) 0 := by
    exact (Option.some_inj.mp h).symm
  rw [h2]
  exact (downheap_perm comp _ _ 0 (Nat.le_refl _)).trans
    (popDownheapArg_perm hd t)

/-! Restoration of the heap invariant by the sift procedures.  The
invariant argument for upheap: every parent/child edge holds except
possibly the one into position index, and the element at index sits below
its grandparent (so that the exchange cannot break the edges into index's
former position). -/

theorem upheap_heapProp [Inhabited α] {comp : α → α → Bool} (hs : SWOrder comp) :
    ∀ index, ∀ l : List α, index < l.length →
    (∀ j, 0 < j → j < l.length → j ≠ index →
      comp (l.getD (parent j) default) (l.getD j default) = false) →
    (0 < index → ∀ ch, (ch = left_child index ∨ ch = right_child index) →
      ch < l.length →
      comp (l.getD (parent index) default) (l.getD ch default) = false) →
    heapProp comp (upheap comp l index) := by
  intro index
  induction index using Nat.strong_induction_on with
  | _ index ih =>
    intro l hlen H1 H2
    rw [upheap]
    by_cases h0 : index = 0
    · rw [dif_pos h0]
      subst h0
      intro j hj hjlen
      exact H1 j hj hjlen (by omega)
    · rw [dif_neg h0]
      have hidx : 0 < index := by omega
      have hplt : parent index < index := parent_lt hidx
      have hplen : parent index < l.length := by omega
      by_cases hc : comp (l.getD (parent index) default) (l.getD index default) = true
      · rw [if_pos hc]
        refine ih (parent index) hplt (swap l (parent index) index) ?_ ?_ ?_
        · rw [length_swap]
          omega
        · intro j hj hjlen hjp
          rw [length_swap] at hjlen
          by_cases hji : j = index
          · subst hji
            rw [getD_swap_fst hplen hlen, getD_swap_snd hlen]
            exact swo_asymm hs hc
          · rw [getD_swap_other hjp hji]
            by_cases hpj : parent j = parent index
            · rw [hpj, getD_swap_fst hplen hlen]
              have hedge : comp (l.getD (parent index) default) (l.getD j default) = false := by
                have := H1 j hj hjlen hji
                rwa [hpj] at this
              exact swo_shift hs hc hedge
            · by_cases hpi : parent j = index
              · rw [hpi, getD_swap_snd hlen]
                exact H2 hidx j (child_of_parent hj hpi) hjlen
              · rw [getD_swap_other hpj hpi]
                exact H1 j hj hjlen hji
        · intro hp0 ch hch hchlen
          rw [length_swap] at hchlen
          have hqp : parent (parent index) < parent index := parent_lt hp0
          have hqnp : parent (parent index) ≠ parent index := by omega
          have hqni : parent (parent index) ≠ index := by omega
          rw [getD_swap_other hqnp hqni]
          have hchgt : parent index < ch := by
            rcases hch with h | h
            · rw [h]; exact lt_left_child _
            · rw [h]; exact lt_right_child _
          by_cases hchi : ch = index
          · rw [hchi, getD_swap_snd hlen]
            exact H1 (parent index) hp0 hplen (by omega)
          · have hchp : ch ≠ parent index := by omega
            rw [getD_swap_other hchp hchi]
            have e1 : comp (l.getD (parent (parent index)) default)
                (l.getD (parent index) default) = false :=
              H1 (parent index) hp0 hplen (by omega)
            have e2 : comp (l.getD (parent index) default)
                (l.getD ch default) = false := by
              have hpch : parent ch = parent index := by
                rcases hch with h | h
                · rw [h, parent_left_child]
                · rw [h, parent_right_child]
              have := H1 ch (by omega) hchlen hchi
              rwa [hpch] at this
            exact hs.2.2 _ _ _ e1 e2
      · rw [if_neg hc]
        intro j hj hjlen
        by_cases hji : j = index
        · subst hji
          rw [Bool.not_eq_true] at hc
          exact hc
        · exact H1 j hj hjlen hji

theorem push_heapProp [Inhabited α] {comp : α → α → Bool} (hs : SWOrder comp)
    (l : List α) (v : α) (hp : heapProp comp l) :
    heapProp comp (push comp l v) := by
  rw [push]
  have hl1 : (l ++ [v]).length - 1 = l.length := by simp
  rw [hl1]
  refine upheap_heapProp hs l.length (l ++ [v]) (by simp) ?_ ?_
  · intro j hj hjlen hji
    have hjl : j < l.length := by
      simp only [List.length_append, List.length_singleton] at hjlen
      omega
    have hpjl : parent j < l.length := by
      have := parent_lt hj
      omega
    rw [List.getD_append _ _ _ _ hjl, List.getD_append _ _ _ _ hpjl]
    exact hp j hj hjl
  · intro h0 ch hch hchlen
    exfalso
    simp only [List.length_append, List.length_singleton] at hchlen
    rcases hch with h | h <;> simp only [left_child, right_child] at h <;> omega

/-- Invariant argument for downheap: every parent/child edge holds except
possibly the two out of position index, and the element at index sits
below its own parent (so the exchange cannot break the edge into index).
The recursion is measured by how far index is from the end. -/
theorem downheap_heapProp [Inhabited α] {comp : α → α → Bool} (hs : SWOrder comp) :
    ∀ n, ∀ l : List α, ∀ index, l.length - index ≤ n →
    (∀ j, 0 < j → j < l.length → j ≠ left_child index → j ≠ right_child index →
      comp (l.getD (parent j) default) (l.getD j default) = false) →
    (0 < index → ∀ ch, (ch = left_child index ∨ ch = right_child index) →
      ch < l.length →
      comp (l.getD (parent index) default) (l.getD ch default) = false) →
    heapProp comp (downheap comp l index) := by
  intro n
  induction n using Nat.strong_induction_on with
  | _ n ih =>
    intro l index hn H1 H2
    rw [downheap]
    by_cases h1 : is_leaf l index
    · rw [dif_pos h1]
      simp only [is_leaf, ge_iff_le, decide_eq_true_eq] at h1
      intro j hj hjlen
      have hrl : left_child index < right_child index := by
        simp only [left_child, right_child]; omega
      exact H1 j hj hjlen (by omega) (by omega)
    · rw [dif_neg h1]
      simp only [is_leaf, ge_iff_le, decide_eq_true_eq, not_le] at h1
      have hil : index < left_child index := lt_left_child index
      have hir : index < right_child index := lt_right_child index
      have hrl : left_child index < right_child index := by
        simp only [left_child, right_child]; omega
      have hidx : index < l.length := by omega
      by_cases h2 : right_child index ≥ l.length
      · rw [dif_pos h2]
        by_cases hc : comp (l.getD index default) (l.getD (left_child index) default) = true
        · rw [if_pos hc]
          refine ih (l.length - left_child index) (by omega)
            (swap l index (left_child index)) (left_child index)
            (by rw [length_swap]) ?_ ?_
          · intro j hj hjlen hjl1 hjl2
            rw [length_swap] at hjlen
            by_cases hji : j = left_child index
            · rw [hji, parent_left_child, getD_swap_fst hidx h1,
                getD_swap_snd h1]
              exact swo_asymm hs hc
            · by_cases hjidx : j = index
              · rw [hjidx]
                have hpi : parent index ≠ index := by
                  have := parent_lt (hjidx ▸ hj)
                  omega
                have hpl : parent index ≠ left_child index := by
                  have := parent_lt (hjidx ▸ hj)
                  omega
                rw [getD_swap_other hpi hpl, getD_swap_fst hidx h1]
                exact H2 (hjidx ▸ hj) (left_child index) (Or.inl rfl) h1
              · rw [getD_swap_other hjidx hji]
                by_cases hpj : parent j = index
                · exfalso
                  rcases child_of_parent hj hpj with h | h
                  · exact hji h
                  · omega
                · by_cases hpl : parent j = left_child index
                  · exfalso
                    rcases child_of_parent hj hpl with h | h
                    · exact hjl1 h
                    · exact hjl2 h
                  · rw [getD_swap_other hpj hpl]
                    exact H1 j hj hjlen hji (by omega)
          · intro h0 ch hch hchlen
            exfalso
            rw [length_swap] at hchlen
            rcases hch with h | h <;>
              simp only [left_child, right_child] at h h2 <;> omega
        · rw [if_neg hc]
          intro j hj hjlen
          by_cases hji : j = left_child index
          · rw [hji, parent_left_child]
            rw [Bool.not_eq_true] at hc
            exact hc
          · exact H1 j hj hjlen hji (by omega)
      · rw [dif_neg h2]
        simp only [ge_iff_le, not_le] at h2
        by_cases hstop : (comp (l.getD (right_child index) default) (l.getD index default) &&
            comp (l.getD (left_child index) default) (l.getD index default)) = true
        · rw [if_pos hstop]
          simp only [Bool.and_eq_true] at hstop
          intro j hj hjlen
          by_cases hji : j = left_child index
          · rw [hji, parent_left_child]
            exact swo_asymm hs hstop.2
          · by_cases hjr : j = right_child index
            · rw [hjr, parent_right_child]
              exact swo_asymm hs hstop.1
            · exact H1 j hj hjlen hji hjr
        · rw [if_neg hstop]
          by_cases htb : comp (l.getD (right_child index) default)
              (l.getD (left_child index) default) = true
          · rw [if_pos htb]
            have hkey : comp (l.getD (left_child index) default)
                (l.getD index default) = false := by
              by_contra hlc
              rw [Bool.not_eq_false] at hlc
              have hri := hs.2.1 _ _ _ htb hlc
              rw [hri, hlc] at hstop
              simp at hstop
            refine ih (l.length - left_child index)
              (by simp only [left_child, right_child] at *; omega)
              (swap l index (left_child index)) (left_child index)
              (by rw [length_swap]) ?_ ?_
            · intro j hj hjlen hjl1 hjl2
              rw [length_swap] at hjlen
              by_cases hji : j = left_child index
              · rw [hji, parent_left_child, getD_swap_fst hidx h1,
                  getD_swap_snd h1]
                exact hkey
              · by_cases hjrc : j = right_child index
                · rw [hjrc, parent_right_child, getD_swap_fst hidx h1,
                    getD_swap_other (by omega : right_child index ≠ index)
                      (by omega : right_child index ≠ left_child index)]
                  exact swo_asymm hs htb
                · by_cases hjidx : j = index
                  · rw [hjidx]
                    have hpi : parent index ≠ index := by
                      have := parent_lt (hjidx ▸ hj)
                      omega
                    have hpl : parent index ≠ left_child index := by
                      have := parent_lt (hjidx ▸ hj)
                      omega
                    rw [getD_swap_other hpi hpl, getD_swap_fst hidx h1]
                    exact H2 (hjidx ▸ hj) (left_child index) (Or.inl rfl) h1
                  · rw [getD_swap_other hjidx hji]
                    by_cases hpj : parent j = index
                    · exfalso
                      rcases child_of_parent hj hpj with h | h
                      · exact hji h
                      · exact hjrc h
                    · by_cases hpl : parent j = left_child index
                      · exfalso
                        rcases child_of_parent hj hpl with h | h
                        · exact hjl1 h
                        · exact hjl2 h
                      · rw [getD_swap_other hpj hpl]
                        exact H1 j hj hjlen hji hjrc
            · intro h0 ch hch hchlen
              rw [length_swap] at hchlen
              rw [parent_left_child, getD_swap_fst hidx h1]
              have hchbig : right_child index < ch := by
                rcases hch with h | h <;>
                  simp only [left_child, right_child] at h ⊢ <;> omega
              rw [getD_swap_other (by omega : ch ≠ index)
                (by omega : ch ≠ left_child index)]
              have hpch : parent ch = left_child index := by
                rcases hch with h | h
                · rw [h, parent_left_child]
                · rw [h, parent_right_child]
              have := H1 ch (by omega) hchlen (by omega) (by omega)
              rwa [hpch] at this
          · rw [if_neg htb]
            rw [Bool.not_eq_true] at htb
            have hkey : comp (l.getD (right_child index) default)
                (l.getD index default) = false := by
              by_contra hrc
              rw [Bool.not_eq_false] at hrc
              have hlcf : comp (l.getD (left_child index) default)
                  (l.getD index default) = false := by
                by_contra hlc
                rw [Bool.not_eq_false] at hlc
                rw [hrc, hlc] at hstop
                simp at hstop
              rw [swo_flip hs hrc hlcf] at htb
              simp at htb
            refine ih (l.length - right_child index) (by omega)
              (swap l index (right_child index)) (right_child index)
              (by rw [length_swap]) ?_ ?_
            · intro j hj hjlen hjr1 hjr2
              rw [length_swap] at hjlen
              by_cases hji : j = left_child index
              · rw [hji, parent_left_child, getD_swap_fst hidx h2,
                  getD_swap_other (by omega : left_child index ≠ index)
                    (by omega : left_child index ≠ right_child index)]
                exact htb
              · by_cases hjrc : j = right_child index
                · rw [hjrc, parent_right_child, getD_swap_fst hidx h2,
                    getD_swap_snd h2]
                  exact hkey
                · by_cases hjidx : j = index
                  · rw [hjidx]
                    have hpi : parent index ≠ index := by
                      have := parent_lt (hjidx ▸ hj)
                      omega
                    have hpr : parent index ≠ right_child index := by
                      have := parent_lt (hjidx ▸ hj)
                      omega
                    rw [getD_swap_other hpi hpr, getD_swap_fst hidx h2]
                    exact H2 (hjidx ▸ hj) (right_child index) (Or.inr rfl) h2
                  · rw [getD_swap_other hjidx hjrc]
                    by_cases hpj : parent j = index
                    · exfalso
                      rcases child_of_parent hj hpj with h | h
                      · exact hji h
                      · exact hjrc h
                    · by_cases hpr : parent j = right_child index
                      · exfalso
                        rcases child_of_parent hj hpr with h | h
                        · exact hjr1 h
                        · exact hjr2 h
                      · rw [getD_swap_other hpj hpr]
                        exact H1 j hj hjlen hji hjrc
            · intro h0 ch hch hchlen
              rw [length_swap] at hchlen
              rw [parent_right_child, getD_swap_fst hidx h2]
              have hchbig : right_child index < ch := by
                rcases hch with h | h <;>
                  simp only [left_child, right_child] at h ⊢ <;> omega
              rw [getD_swap_other (by omega : ch ≠ index)
                (by omega : ch ≠ right_child index)]
              have hpch : parent ch = right_child index := by
                rcases hch with h | h
                · rw [h, parent_left_child]
                · rw [h, parent_right_child]
              have := H1 ch (by omega) hchlen (by omega) (by omega)
              rwa [hpch] at this

theorem heapProp_nil [Inhabited α] (comp : α → α → Bool) :
    heapProp comp ([] : List α) := by
  intro j hj hjlen
  simp at hjlen

theorem getD_dropLast [Inhabited α] (l : List α) (k : Nat)
    (h : k < l.length - 1) : l.dropLast.getD k default = l.getD k default := by
  rw [List.dropLast_eq_take, List.getD_eq_getElem?_getD,
    List.getD_eq_getElem?_getD, List.getElem?_take_of_lt h]

theorem pop_heapProp [Inhabited α] {comp : α → α → Bool} (hs : SWOrder comp)
    (l l2 : List α) (hp : heapProp comp l) (h : pop comp l = some l2) :
    heapProp comp l2 := by
  match l with
  | [] => simp [pop] at h
  | hd :: t =>
    rw [pop] at h
    rw [← Option.some_inj.mp h]
    refine downheap_heapProp hs (popDownheapArg (hd :: t)).length _ 0
      (Nat.le_refl _) ?_ ?_
    · intro j hj hjlen hj1 hj2
      simp only [left_child, right_child] at hj1 hj2
      have hj3 : 3 ≤ j := by omega
      have hlen2 : (popDownheapArg (hd :: t)).length = t.length := by
        rw [popDownheapArg, List.length_dropLast, length_swap]
        simp
      rw [hlen2] at hjlen
      have hpj1 : 1 ≤ parent j := by simp only [parent]; omega
      have hpj2 : parent j < j := parent_lt (by omega)
      have hv : ∀ k, 1 ≤ k → k < t.length →
          (popDownheapArg (hd :: t)).getD k default =
            (hd :: t).getD k default := by
        intro k hk1 hk2
        rw [popDownheapArg, getD_dropLast _ _ (by rw [length_swap]; simp; omega),
          getD_swap_other (by omega)
            (by simp only [List.length_cons]; omega)]
      rw [hv j (by omega) hjlen, hv (parent j) hpj1 (by omega)]
      exact hp j (by omega) (by simp only [List.length_cons]; omega)
    · intro h0
      exact absurd h0 (lt_irrefl 0)

theorem run_heapProp [Inhabited α] {comp : α → α → Bool} (hs : SWOrder comp) :
    ∀ ops : List (Op α), ∀ l l2 : List α, heapProp comp l →
    run comp l ops = some l2 → heapProp comp l2 := by
  intro ops
  induction ops with
  | nil =>
    intro l l2 hp h
    rw [run] at h
    rwa [← Option.some_inj.mp h]
  | cons op ops ih =>
    intro l l2 hp h
    match op with
    | Op.pushOp v =>
      rw [run] at h
      exact ih _ _ (push_heapProp hs l v hp) h
    | Op.popOp =>
      rw [run] at h
      match hpop : pop comp l with
      | none => rw [hpop] at h; simp at h
      | some l3 =>
        rw [hpop] at h
        exact ih _ _ (pop_heapProp hs l l3 hp hpop) h

theorem pop_length [Inhabited α] (comp : α → α → Bool) (l l2 : List α)
    (h : pop comp l = some l2) : l ≠ [] ∧ l2.length + 1 = l.length := by
  match l with
  | [] => simp [pop] at h
  | hd :: t =>
    rw [pop] at h
    refine ⟨by simp, ?_⟩
    rw [← Option.some_inj.mp h,
      length_downheap comp (popDownheapArg (hd :: t)).length _ 0 (Nat.le_refl _),
      popDownheapArg, List.length_dropLast, length_swap]
    simp

theorem run_length [Inhabited α] (comp : α → α → Bool) :
    ∀ ops : List (Op α), ∀ l l2 : List α, run comp l ops = some l2 →
    l2.length + countPop ops = l.length + countPush ops := by
  intro ops
  induction ops with
  | nil =>
    intro l l2 h
    rw [run] at h
    rw [← Option.some_inj.mp h, countPop, countPush]
  | cons op ops ih =>
    intro l l2 h
    match op with
    | Op.pushOp v =>
      rw [run] at h
      have := ih _ _ h
      rw [length_push] at this
      rw [countPop, countPush]
      omega
    | Op.popOp =>
      rw [run] at h
      match hpop : pop comp l with
      | none => rw [hpop] at h; simp at h
      | some l3 =>
        rw [hpop] at h
        have h2 := ih _ _ h
        have h3 := pop_length comp l l3 hpop
        rw [countPop, countPush]
        omega

theorem pushAll_heapProp [Inhabited α] {comp : α → α → Bool} (hs : SWOrder comp) :
    ∀ ls l : List α, heapProp comp l → heapProp comp (pushAll comp l ls) := by
  intro ls
  induction ls with
  | nil => intro l hp; exact hp
  | cons x ls ih =>
    intro l hp
    rw [pushAll, List.foldl_cons]
    exact ih (push comp l x) (push_heapProp hs l x hp)

theorem pushAll_perm [Inhabited α] (comp : α → α → Bool) :
    ∀ ls l : List α, (pushAll comp l ls).Perm (ls ++ l) := by
  intro ls
  induction ls with
  | nil => intro l; exact List.Perm.refl l
  | cons x ls ih =>
    intro l
    rw [pushAll, List.foldl_cons]
    refine (ih (push comp l x)).trans ?_
    refine ((List.Perm.append_left ls (push_perm comp l x)).trans ?_)
    exact List.perm_middle

/-! The root dominates every element, so draining pops a sorted sequence. -/

theorem root_max [Inhabited α] {comp : α → α → Bool} (hs : SWOrder comp)
    (l : List α) (hp : heapProp comp l) :
    ∀ i, i < l.length → comp (l.getD 0 default) (l.getD i default) = false := by
  intro i
  induction i using Nat.strong_induction_on with
  | _ i ih =>
    intro hi
    by_cases h0 : i = 0
    · rw [h0]
      exact swo_irrefl hs _
    · have hpar := parent_lt (by omega : 0 < i)
      exact hs.2.2 _ _ _ (ih (parent i) hpar (by omega)) (hp i (by omega) hi)

theorem root_max_mem [Inhabited α] {comp : α → α → Bool} (hs : SWOrder comp)
    (l : List α) (hp : heapProp comp l) :
    ∀ x ∈ l, comp (l.getD 0 default) x = false := by
  intro x hx
  rcases List.mem_iff_getElem.mp hx with ⟨i, hi, rfl⟩
  rw [← List.getD_eq_getElem l default hi]
  exact root_max hs l hp i hi

theorem drain_spec [Inhabited α] {comp : α → α → Bool} (hs : SWOrder comp) :
    ∀ fuel : Nat, ∀ l : List α, heapProp comp l → l.length = fuel →
    (drain comp fuel l).Perm l ∧
      List.Pairwise (fun a b => comp a b = false) (drain comp fuel l) := by
  intro fuel
  induction fuel with
  | zero =>
    intro l hp hlen
    rw [List.length_eq_zero.mp hlen]
    exact ⟨List.Perm.refl _, List.Pairwise.nil⟩
  | succ fuel ih =>
    intro l hp hlen
    match l with
    | hd :: t =>
      have htop : top (hd :: t) = some hd := by simp [top]
      have hpop : pop comp (hd :: t) =
          some (downheap comp (popDownheapArg (hd :: t)) 0) := rfl
      rw [drain, htop, hpop]
      have hperm2 : (downheap comp (popDownheapArg (hd :: t)) 0).Perm t :=
        pop_perm comp hd t _ rfl
      have hhp2 : heapProp comp (downheap comp (popDownheapArg (hd :: t)) 0) :=
        pop_heapProp hs (hd :: t) _ hp rfl
      have hlen2 : (downheap comp (popDownheapArg (hd :: t)) 0).length = fuel := by
        rw [hperm2.length_eq]
        simpa using hlen
      obtain ⟨hperm3, hpw3⟩ := ih _ hhp2 hlen2
      constructor
      · exact List.Perm.cons hd (hperm3.trans hperm2)
      · refine List.Pairwise.cons ?_ hpw3
        intro x hx
        have hxl : x ∈ hd :: t := by
          have : x ∈ t := (hperm3.trans hperm2).mem_iff.mp hx
          exact List.mem_cons_of_mem hd this
        have := root_max_mem hs (hd :: t) hp x hxl
        rwa [List.getD_cons_zero] at this

theorem pairwise_lt_range_one (n : Nat) :
    List.Pairwise (· < ·) (List.range' 1 n) := by
  have h := List.chain_lt_range' 0 n Nat.one_pos
  exact (List.chain_iff_pairwise.mp h).sublist (List.sublist_cons_self 0 _)

/-- Draining a heap built by pushes returns the unique descending
reordering of the pushed elements (default comparison). -/
theorem drain_eq_sorted_ltb (n : Nat) (l target : List Nat)
    (hperm : l.Perm target) (hn : target.length = n)
    (hsorted : List.Pairwise (fun a b : Nat => b ≤ a) target) :
    drain ltb n (pushAll ltb [] l) = target := by
  have hh : heapProp ltb (pushAll ltb [] l) :=
    pushAll_heapProp swo_ltb l [] (heapProp_nil ltb)
  have hpm : (pushAll ltb [] l).Perm l := by
    simpa using pushAll_perm ltb l []
  have hlen : (pushAll ltb [] l).length = n := by
    rw [hpm.length_eq, hperm.length_eq, hn]
  obtain ⟨hp1, hp2⟩ := drain_spec swo_ltb n (pushAll ltb [] l) hh hlen
  have hsd : List.Pairwise (fun a b : Nat => b ≤ a)
      (drain ltb n (pushAll ltb [] l)) := by
    refine hp2.imp ?_
    intro a b hab
    simp only [ltb, decide_eq_false_iff_not] at hab
    omega
  have hpf : (drain ltb n (pushAll ltb [] l)).Perm target :=
    hp1.trans (hpm.trans hperm)
  haveI : IsAntisymm Nat (fun a b : Nat => b ≤ a) :=
    ⟨fun a b h1 h2 => Nat.le_antisymm h2 h1⟩
  exact List.eq_of_perm_of_sorted hpf hsd hsorted

/-- Draining a heap built by pushes returns the unique ascending
reordering of the pushed elements (inverse comparison). -/
theorem drain_eq_sorted_gtb (n : Nat) (l target : List Nat)
    (hperm : l.Perm target) (hn : target.length = n)
    (hsorted : List.Pairwise (fun a b : Nat => a ≤ b) target) :
    drain gtb n (pushAll gtb [] l) = target := by
  have hh : heapProp gtb (pushAll gtb [] l) :=
    pushAll_heapProp swo_gtb l [] (heapProp_nil gtb)
  have hpm : (pushAll gtb [] l).Perm l := by
    simpa using pushAll_perm gtb l []
  have hlen : (pushAll gtb [] l).length = n := by
    rw [hpm.length_eq, hperm.length_eq, hn]
  obtain ⟨hp1, hp2⟩ := drain_spec swo_gtb n (pushAll gtb [] l) hh hlen
  have hsd : List.Pairwise (fun a b : Nat => a ≤ b)
      (drain gtb n (pushAll gtb [] l)) := by
    refine hp2.imp ?_
    intro a b hab
    simp only [gtb, decide_eq_false_iff_not] at hab
    omega
  have hpf : (drain gtb n (pushAll gtb [] l)).Perm target :=
    hp1.trans (hpm.trans hperm)
  haveI : IsAntisymm Nat (fun a b : Nat => a ≤ b) :=
    ⟨fun a b h1 h2 => Nat.le_antisymm h1 h2⟩
  exact List.eq_of_perm_of_sorted hpf hsd hsorted

/-! Small evaluation facts shared by several results. -/

theorem popArg_single [Inhabited α] (x : α) :
    popDownheapArg [x] = ([] : List α) := by
  simp [popDownheapArg, swap]

theorem is_leaf_nil : is_leaf ([] : List α) 0 = true := by
  simp [is_leaf, left_child]

theorem downheap_nil [Inhabited α] (comp : α → α → Bool) :
    downheap comp ([] : List α) 0 = [] := by
  rw [downheap, dif_pos is_leaf_nil]

theorem pop_single [Inhabited α] (comp : α → α → Bool) (x : α) :
    pop comp [x] = some [] := by
  have h : pop comp [x] = some (downheap comp (popDownheapArg [x]) 0) := rfl
  rw [h, popArg_single, downheap_nil]

theorem push_nil [Inhabited α] (comp : α → α → Bool) (x : α) :
    push comp [] x = [x] := by
  rw [push]
  simp only [List.nil_append, List.length_singleton, Nat.sub_self]
  rw [upheap, dif_pos rfl]

/-! The claims. -/

/-- C1: the code does not fail fast on an empty container.  top() reads
c[0] unconditionally and pop() reads c[0] and c[c.size() - 1] and calls
pop_back on the empty vector; both executions are the out-of-bounds
accesses the model flags as none.  No EmptyContainer (or any other) error
signal exists anywhere in the code. -/
theorem C1_empty_execution :
    top ([] : List Nat) = none ∧ pop ltb ([] : List Nat) = none :=
  ⟨rfl, rfl⟩

/-- C2: after every finite sequence of push/pop calls starting from an
empty heap, each pop performed on a non-empty state (that is exactly when
run returns some), every non-root index i satisfies
compare(element[(i-1)/2], element[i]) = false, for every comparison
satisfying the strict-weak-ordering laws the specification demands. -/
theorem C2_heap_invariant {α : Type} [Inhabited α] (comp : α → α → Bool)
    (hs : SWOrder comp) (ops : List (Op α)) (l : List α)
    (h : run comp [] ops = some l) : heapProp comp l :=
  run_heapProp hs ops [] l (heapProp_nil comp) h

/-- Witness for C2 at a concrete call sequence. -/
theorem C2_witness : heapProp ltb [2, 1] :=
  C2_heap_invariant ltb swo_ltb [Op.pushOp 1, Op.pushOp 2] [2, 1]
    (by simp [run, push, upheap, swap, parent, ltb])

/-- C3 counterexample: pushing (5,1),(5,2),(3,3),(5,4) under the by-key
comparison and popping reaches a node whose children do not compare
strictly above it (keys 5 and 3 against 5), where the claim prescribes
stopping with no exchange; the code exchanges with the left child and the
resulting sequences differ. -/
theorem C3_counterexample :
    pop keyLt (pushAll keyLt [] [(5,1),(5,2),(3,3),(5,4)]) =
      some [(5,2),(5,4),(3,3)] ∧
    popClaim keyLt (pushAll keyLt [] [(5,1),(5,2),(3,3),(5,4)]) =
      some [(5,4),(5,2),(3,3)] := by
  constructor <;>
    simp [pushAll, push, pop, popClaim, popDownheapArg, upheap, downheap,
      downheapClaim, swap, parent, left_child, right_child, is_leaf, keyLt]

/-- C3 amended: at a node with both children the downward restoration
stops with no exchange when (and only when) both children compare strictly
below the node; otherwise the node is exchanged with a child that compares
not-below the other child — the right child unless compare(right, left)
holds — and restoration continues from that child's position. -/
theorem C3_both_children_step {α : Type} [Inhabited α] (comp : α → α → Bool)
    (hs : SWOrder comp) (l : List α) (index : Nat)
    (hb : right_child index < l.length) :
    (comp (l.getD (right_child index) default) (l.getD index default) = true ∧
     comp (l.getD (left_child index) default) (l.getD index default) = true →
      downheap comp l index = l) ∧
    (¬(comp (l.getD (right_child index) default) (l.getD index default) = true ∧
       comp (l.getD (left_child index) default) (l.getD index default) = true) →
      ∃ ch, (ch = left_child index ∨ ch = right_child index) ∧
        comp (l.getD ch default) (l.getD (left_child index) default) = false ∧
        comp (l.getD ch default) (l.getD (right_child index) default) = false ∧
        (ch = left_child index ↔
          comp (l.getD (right_child index) default)
            (l.getD (left_child index) default) = true) ∧
        downheap comp l index = downheap comp (swap l index ch) ch) := by
  have hlr : left_child index < right_child index := by
    simp only [left_child, right_child]; omega
  have hleaf : ¬ is_leaf l index = true := by
    simp only [is_leaf, ge_iff_le, decide_eq_true_eq, not_le]
    omega
  have hr : ¬ right_child index ≥ l.length := by omega
  constructor
  · intro ⟨ha, hb2⟩
    rw [downheap, dif_neg hleaf, dif_neg hr, if_pos (by rw [ha, hb2]; rfl)]
  · intro hneg
    have hstop : ¬((comp (l.getD (right_child index) default) (l.getD index default) &&
        comp (l.getD (left_child index) default) (l.getD index default)) = true) := by
      rw [Bool.and_eq_true]
      exact hneg
    by_cases htb : comp (l.getD (right_child index) default)
        (l.getD (left_child index) default) = true
    · refine ⟨left_child index, Or.inl rfl, swo_irrefl hs _, swo_asymm hs htb,
        iff_of_true rfl htb, ?_⟩
      rw [downheap, dif_neg hleaf, dif_neg hr, if_neg hstop, if_pos htb]
    · rw [Bool.not_eq_true] at htb
      refine ⟨right_child index, Or.inr rfl, htb, swo_irrefl hs _,
        iff_of_false (by omega) (by rw [htb]; exact Bool.false_ne_true), ?_⟩
      rw [downheap, dif_neg hleaf, dif_neg hr, if_neg hstop,
        if_neg (by rw [htb]; exact Bool.false_ne_true)]

/-- Witness for the amended C3 at a concrete stop configuration. -/
theorem C3_witness : downheap ltb [5, 1, 2] 0 = [5, 1, 2] :=
  (C3_both_children_step ltb swo_ltb [5, 1, 2] 0 (by decide)).1 (by decide)

/-- C4: pushing any permutation of 1..n drains descending under the
default comparison and ascending under the inverse one; in particular
pushing 0..9 in order drains as 9..0, resp. 0..9. -/
theorem C4_sorted_extraction :
    (∀ (n : Nat) (l : List Nat), l.Perm (List.range' 1 n) →
      drain ltb n (pushAll ltb [] l) = (List.range' 1 n).reverse ∧
      drain gtb n (pushAll gtb [] l) = List.range' 1 n) ∧
    drain ltb 10 (pushAll ltb [] (List.range 10)) =
      [9, 8, 7, 6, 5, 4, 3, 2, 1, 0] ∧
    drain gtb 10 (pushAll gtb [] (List.range 10)) =
      [0, 1, 2, 3, 4, 5, 6, 7, 8, 9] := by
  refine ⟨?_, ?_, ?_⟩
  · intro n l hperm
    constructor
    · refine drain_eq_sorted_ltb n l _ (hperm.trans (List.reverse_perm _).symm)
        (by simp) ?_
      rw [List.pairwise_reverse]
      exact (pairwise_lt_range_one n).imp (fun h => Nat.le_of_lt h)
    · exact drain_eq_sorted_gtb n l _ hperm (by simp)
        ((pairwise_lt_range_one n).imp (fun h => Nat.le_of_lt h))
  · exact drain_eq_sorted_ltb 10 (List.range 10) _ (by decide) (by decide)
      (by decide)
  · exact drain_eq_sorted_gtb 10 (List.range 10) _ (by decide) (by decide)
      (by decide)

/-- Witness for C4 at a concrete permutation. -/
theorem C4_witness :
    drain ltb 2 (pushAll ltb [] [2, 1]) = (List.range' 1 2).reverse :=
  (C4_sorted_extraction.1 2 [2, 1] (by decide)).1

/-- C5: after k pushes and j pops from empty, with every pop on a
non-empty state, size() is k - j (and j never exceeds k); and empty() is
true exactly when size() is 0, in every state. -/
theorem C5_size_accounting {α : Type} [Inhabited α] :
    (∀ (comp : α → α → Bool) (ops : List (Op α)) (l : List α),
      run comp [] ops = some l →
      size l = countPush ops - countPop ops ∧
        countPop ops ≤ countPush ops) ∧
    (∀ l : List α, empty l = true ↔ size l = 0) := by
  constructor
  · intro comp ops l h
    have h2 := run_length comp ops [] l h
    simp only [List.length_nil, Nat.zero_add] at h2
    rw [size]
    omega
  · intro l
    simp [empty, size]

/-- Witness for C5 at a concrete call sequence. -/
theorem C5_witness :
    size ([] : List Nat) =
        countPush [Op.pushOp (5 : Nat), Op.popOp] -
          countPop [Op.pushOp (5 : Nat), Op.popOp] ∧
      countPop [Op.pushOp (5 : Nat), Op.popOp] ≤
        countPush [Op.pushOp (5 : Nat), Op.popOp] :=
  C5_size_accounting.1 ltb [Op.pushOp 5, Op.popOp] []
    (by simp [run, push, upheap, pop, popDownheapArg, downheap, swap,
      is_leaf, parent, left_child, right_child, ltb])

/-- C6 counterexample: popping a one-element heap hands the empty sequence
to the downward restoration — the code invokes downheap(0) unconditionally
after shrinking, against the claim that the restoration is not invoked on
the empty sequence. -/
theorem C6_counterexample :
    popDownheapArg ([5] : List Nat) = [] ∧
    pop ltb [5] = some (downheap ltb (popDownheapArg [5]) 0) :=
  ⟨popArg_single 5, rfl⟩

/-- C6 amended: popping the last remaining element shrinks the heap to
empty and performs no out-of-bounds element access; the downward
restoration is invoked on the now-empty sequence, where the leaf test is
immediately true and it returns without touching any element. -/
theorem C6_last_pop {α : Type} [Inhabited α] (comp : α → α → Bool) (x : α) :
    pop comp [x] = some [] ∧ popDownheapArg [x] = ([] : List α) ∧
    is_leaf ([] : List α) 0 = true ∧ downheap comp ([] : List α) 0 = [] :=
  ⟨pop_single comp x, popArg_single x, is_leaf_nil, downheap_nil comp⟩

/-- C7: the recursions terminate: sift-up strictly decreases the index
(parent is strictly smaller away from the root), sift-down strictly
descends (both child indices are strictly larger) over a sequence whose
length the exchanges preserve.  Totality of every operation is witnessed
by the definitions themselves, each accepted with exactly these
measures. -/
theorem C7_termination {α : Type} [Inhabited α] :
    (∀ index : Nat, index ≠ 0 → parent index < index) ∧
    (∀ index : Nat, index < left_child index ∧ index < right_child index) ∧
    (∀ (l : List α) (a b : Nat), (swap l a b).length = l.length) := by
  refine ⟨?_, ?_, ?_⟩
  · intro i hi
    exact parent_lt (by omega)
  · intro i
    exact ⟨lt_left_child i, lt_right_child i⟩
  · intro l a b
    exact length_swap l a b

/-- Witness for C7 at concrete indices. -/
theorem C7_witness : parent 5 < 5 ∧ 5 < left_child 5 :=
  ⟨(@C7_termination Nat _).1 5 (by decide), ((@C7_termination Nat _).2.1 5).1⟩

/-- C8: on the empty heap, top() right after push(x) returns x, and
push(x) followed by pop() leaves the container empty. -/
theorem C8_single_element {α : Type} [Inhabited α] (comp : α → α → Bool)
    (x : α) :
    top (push comp [] x) = some x ∧ pop comp (push comp [] x) = some [] := by
  rw [push_nil]
  exact ⟨by simp [top], pop_single comp x⟩

/-- C9: push adds exactly one occurrence of the pushed value and pop
removes exactly one occurrence of the previous root; the sifts only
permute storage. -/
theorem C9_multiset_preservation {α : Type} [Inhabited α] :
    (∀ (comp : α → α → Bool) (l : List α) (v : α),
      (push comp l v).Perm (v :: l)) ∧
    (∀ (comp : α → α → Bool) (l l2 : List α) (t : α),
      top l = some t → pop comp l = some l2 → (t :: l2).Perm l) := by
  constructor
  · intro comp l v
    exact push_perm comp l v
  · intro comp l l2 t htop hpop
    match l with
    | [] => simp [top] at htop
    | hd :: tl =>
      have ht : hd = t := by
        simpa [top] using htop
      rw [← ht]
      exact List.Perm.cons hd (pop_perm comp hd tl l2 hpop)

/-- Witness for C9 at a concrete pop. -/
theorem C9_witness : ((2 : Nat) :: [1]).Perm [2, 1] :=
  C9_multiset_preservation.2 ltb [2, 1] [1] 2 (by simp [top])
    (by simp [pop, popDownheapArg, downheap, swap, is_leaf, left_child,
      right_child, parent, ltb])

/-- C10: the copy overload and the move overload of push produce the same
resulting sequence for the same value; under value semantics the two
bodies are the same computation (size() is c.size()). -/
theorem C10_push_overloads {α : Type} [Inhabited α] (comp : α → α → Bool)
    (l : List α) (v : α) : push comp l v = pushMove comp l v := rfl

end PQ
